import Mathlib

/-!
Shallow embedding of the collaboration-matrix pipeline of the
`age-it-publications` repository (files
`src/pages/2_Collaborazioni_tra_aree_scientifiche.py` and `src/src/app_V0.py`).

Python strings are modelled as `List Char` (`PyStr`); a possibly-NaN cell is
an `Option PyStr` (`none` = NaN).  Machine integers do not occur: all counts
are Python arbitrary-precision integers, modelled as `Nat`.
-/

abbrev PyStr := List Char

def pyOf (s : String) : PyStr := s.data

/-- ASCII whitespace recognised by Python `str.split()` / `str.strip()`
(names and area labels in this data set contain no exotic Unicode spaces). -/
def isSpaceChar (c : Char) : Bool :=
  c == ' ' || c == '\t' || c == '\n' || c == '\r' || c == '\x0b' || c == '\x0c'

/-- Split a character list at every separator character recognised by `p`,
keeping empty chunks — the semantics of Python `str.split(sep)` (chunks
never contain a separator).  `splitP p [] = [[]]`, as `"".split(",") == [""]`. -/
def splitP (p : Char → Bool) : List Char → List (List Char)
  | [] => [[]]
  | c :: cs =>
    if p c then [] :: splitP p cs
    else
      match splitP p cs with
      | [] => [[c]]
      | t :: ts => (c :: t) :: ts

/-- Python `s.split(sep)` for a one-character separator. -/
def splitChar (sep : Char) (l : List Char) : List (List Char) :=
  splitP (fun c => c == sep) l

/-- Python `s.split()` (no argument): maximal runs of non-whitespace,
empty chunks dropped. -/
def pyWords (l : List Char) : List (List Char) :=
  (splitP isSpaceChar l).filter (fun w => decide (w ≠ []))

/-- Python `" ".join(ws)`. -/
def joinWords : List (List Char) → List Char
  | [] => []
  | [w] => w
  | w :: ws => w ++ ' ' :: joinWords ws

/-- `" ".join(s.split())`: collapse internal whitespace runs to single spaces
and drop leading/trailing whitespace.  The `s.strip()` the source performs
first is absorbed by `split()`, which already ignores boundary whitespace. -/
def collapseWs (l : PyStr) : PyStr := joinWords (pyWords l)

/-- `normalise_name` of the source: NaN (`none`) becomes `""`, otherwise
strip + collapse whitespace.  (No case folding happens in the source.) -/
def normalise_name : Option PyStr → PyStr
  | none => []
  | some l => collapseWs l

/-- `parse_authors` of the source: NaN gives `[]`; otherwise the raw field is
split on commas — and only commas — each token is normalised, and empty
tokens are dropped. -/
def parse_authors : Option PyStr → List PyStr
  | none => []
  | some l =>
    ((splitChar ',' l).map (fun a => normalise_name (some a))).filter
      (fun a => decide (a ≠ []))

/-! ### Facts about splitting and joining -/

theorem splitP_ne_nil (p : Char → Bool) (l : List Char) : splitP p l ≠ [] := by
  cases l with
  | nil => simp [splitP]
  | cons c cs =>
    simp only [splitP]
    by_cases h : p c
    · simp [h]
    · simp only [h, if_neg, Bool.false_eq_true, ite_false]
      cases splitP p cs <;> simp

theorem mem_splitP {p : Char → Bool} {l t : List Char} (ht : t ∈ splitP p l) :
    ∀ c ∈ t, p c = false ∧ c ∈ l := by
  induction l generalizing t with
  | nil =>
    simp [splitP] at ht
    subst ht; simp
  | cons d ds ih =>
    simp only [splitP] at ht
    by_cases hd : p d
    · simp only [hd, if_true, List.mem_cons] at ht
      rcases ht with rfl | ht
      · simp
      · intro c hc
        rcases ih ht c hc with ⟨h1, h2⟩
        exact ⟨h1, List.mem_cons_of_mem _ h2⟩
    · simp only [hd, Bool.false_eq_true, if_false] at ht
      rcases hsp : splitP p ds with _ | ⟨t', ts⟩
      · exact absurd hsp (splitP_ne_nil p ds)
      · rw [hsp] at ht
        rcases List.mem_cons.mp ht with rfl | hmem
        · intro c hc
          rcases List.mem_cons.mp hc with rfl | hc'
          · exact ⟨by simpa using hd, List.mem_cons_self _ _⟩
          · have : t' ∈ splitP p ds := by rw [hsp]; exact List.mem_cons_self _ _
            rcases ih this c hc' with ⟨h1, h2⟩
            exact ⟨h1, List.mem_cons_of_mem _ h2⟩
        · intro c hc
          have : t ∈ splitP p ds := by rw [hsp]; exact List.mem_cons_of_mem _ hmem
          rcases ih this c hc with ⟨h1, h2⟩
          exact ⟨h1, List.mem_cons_of_mem _ h2⟩

theorem splitP_all_false {p : Char → Bool} {w : List Char}
    (hw : ∀ c ∈ w, p c = false) : splitP p w = [w] := by
  induction w with
  | nil => rfl
  | cons c cs ih =>
    have hc : p c = false := hw c (List.mem_cons_self _ _)
    have hrest : splitP p cs = [cs] := ih fun d hd => hw d (List.mem_cons_of_mem _ hd)
    simp [splitP, hc, hrest]

theorem splitP_append_sep {p : Char → Bool} {w l : List Char} {sep : Char}
    (hw : ∀ c ∈ w, p c = false) (hsep : p sep = true) :
    splitP p (w ++ sep :: l) = w :: splitP p l := by
  induction w with
  | nil => simp [splitP, hsep]
  | cons c cs ih =>
    have hc : p c = false := hw c (List.mem_cons_self _ _)
    have hrest := ih fun d hd => hw d (List.mem_cons_of_mem _ hd)
    simp [splitP, hc, hrest]

theorem mem_pyWords {l w : List Char} (hw : w ∈ pyWords l) :
    w ≠ [] ∧ ∀ c ∈ w, isSpaceChar c = false ∧ c ∈ l := by
  rcases List.mem_filter.mp hw with ⟨hmem, hne⟩
  exact ⟨by simpa using hne, mem_splitP hmem⟩

theorem pyWords_joinWords {ws : List (List Char)}
    (h : ∀ w ∈ ws, w ≠ [] ∧ ∀ c ∈ w, isSpaceChar c = false) :
    pyWords (joinWords ws) = ws := by
  induction ws with
  | nil => rfl
  | cons w ws ih =>
    rcases h w (List.mem_cons_self _ _) with ⟨hne, hclean⟩
    cases ws with
    | nil =>
      show (splitP isSpaceChar w).filter _ = [w]
      rw [splitP_all_false hclean]
      simp [hne]
    | cons w' ws' =>
      have hrest := ih fun u hu => h u (List.mem_cons_of_mem _ hu)
      show (splitP isSpaceChar (w ++ ' ' :: joinWords (w' :: ws'))).filter
        (fun u => decide (u ≠ [])) = _
      rw [splitP_append_sep hclean (by decide),
        List.filter_cons_of_pos (by simpa using hne)]
      exact congrArg (List.cons w) hrest

theorem collapseWs_idem (l : PyStr) : collapseWs (collapseWs l) = collapseWs l := by
  unfold collapseWs
  congr 1
  exact pyWords_joinWords fun w hw => ⟨(mem_pyWords hw).1, fun c hc => ((mem_pyWords hw).2 c hc).1⟩

theorem mem_joinWords {ws : List (List Char)} {c : Char} (hc : c ∈ joinWords ws) :
    c = ' ' ∨ ∃ w ∈ ws, c ∈ w := by
  induction ws with
  | nil => simp [joinWords] at hc
  | cons w ws ih =>
    cases ws with
    | nil => exact Or.inr ⟨w, List.mem_cons_self _ _, hc⟩
    | cons w' ws' =>
      rcases List.mem_append.mp hc with hw | htail
      · exact Or.inr ⟨w, List.mem_cons_self _ _, hw⟩
      · rcases List.mem_cons.mp htail with rfl | hj
        · exact Or.inl rfl
        · rcases ih hj with h | ⟨u, hu, hcu⟩
          · exact Or.inl h
          · exact Or.inr ⟨u, List.mem_cons_of_mem _ hu, hcu⟩

theorem mem_collapseWs {l : PyStr} {c : Char} (hc : c ∈ collapseWs l) :
    c = ' ' ∨ c ∈ l := by
  rcases mem_joinWords hc with h | ⟨w, hw, hcw⟩
  · exact Or.inl h
  · exact Or.inr ((mem_pyWords hw).2 c hcw).2

/-! ### Census roster (`build_name_to_field`) -/

/-- Python `str(x)` on a possibly-NaN cell: `str(nan) == "nan"`. -/
def strOfCell : Option PyStr → PyStr
  | none => pyOf "nan"
  | some s => s

/-- `drop_duplicates(subset=["full_name"], keep="first")`: keep the first row
for each name, remembering already-seen names in `seen`. -/
def dedupKeys : List (PyStr × PyStr) → List PyStr → List (PyStr × PyStr)
  | [], _ => []
  | (n, a) :: rest, seen =>
    if n ∈ seen then dedupKeys rest seen
    else (n, a) :: dedupKeys rest (n :: seen)

/-- The row-level core of `build_name_to_field`: normalise both fields
(`astype(str)` first, so NaN becomes the non-empty string `"nan"`), drop rows
where either normalised field is empty, keep the first occurrence of each
normalised name.  The resulting association list is the Python dict. -/
def rosterRows (rows : List (Option PyStr × Option PyStr)) : List (PyStr × PyStr) :=
  dedupKeys
    ((rows.map fun r => (collapseWs (strOfCell r.1), collapseWs (strOfCell r.2))).filter
      fun r => decide (r.1 ≠ []) && decide (r.2 ≠ []))
    []

/-- `name_to_field.get(a, nan)`: dictionary lookup, `none` when absent. -/
def rosterGet (roster : List (PyStr × PyStr)) (n : PyStr) : Option PyStr :=
  (roster.find? fun kv => decide (kv.1 = n)).map Prod.snd

/-! ### Tabular data (pandas DataFrames) -/

/-- A pandas DataFrame: named columns of possibly-NaN string cells. -/
structure DataTable where
  columns : List (PyStr × List (Option PyStr))

def colNames (t : DataTable) : List PyStr := t.columns.map Prod.fst

def getCol (t : DataTable) (c : PyStr) : List (Option PyStr) :=
  ((t.columns.find? fun kv => decide (kv.1 = c)).map Prod.snd).getD []

/-- `build_name_to_field(cen_df)`: pair the `full_name` and `Area_desc`
columns row by row and build the roster dict. -/
def build_name_to_field (cen_df : DataTable) : List (PyStr × PyStr) :=
  rosterRows ((getCol cen_df (pyOf "full_name")).zip (getCol cen_df (pyOf "Area_desc")))

/-! ### Sorting (`sorted(...)` on Python strings) -/

/-- Python `<` on strings: lexicographic comparison by code point. -/
def strLt : PyStr → PyStr → Bool
  | _, [] => false
  | [], _ :: _ => true
  | c :: s, d :: t => if c < d then true else if d < c then false else strLt s t

def insertSorted (x : PyStr) : List PyStr → List PyStr
  | [] => [x]
  | y :: ys => if strLt y x then y :: insertSorted x ys else x :: y :: ys

/-- Python `sorted(...)` (insertion sort; on the duplicate-free inputs it is
applied to, any comparison sort produces the same list). -/
def sortStrs (l : List PyStr) : List PyStr := l.foldr insertSorted []

/-- Python `sorted(set(l))`. -/
def sortedSet (l : List PyStr) : List PyStr := sortStrs l.dedup

/-! ### Pair counting -/

abbrev AreaPair := PyStr × PyStr

/-- `itertools.combinations(l, 2)` in source order. -/
def pairsOf : List PyStr → List AreaPair
  | [] => []
  | a :: rest => (rest.map fun b => (a, b)) ++ pairsOf rest

abbrev Counts := List (AreaPair × ℕ)

/-- `counts[k] = counts.get(k, 0) + 1` on an insertion-ordered dict. -/
def bump (k : AreaPair) : Counts → Counts
  | [] => [(k, 1)]
  | (k', v) :: rest => if k' = k then (k', v + 1) :: rest else (k', v) :: bump k rest

def bumpAll (ps : List AreaPair) (c : Counts) : Counts :=
  ps.foldl (fun acc k => bump k acc) c

/-- `counts.get(k, 0)`. -/
def countVal : Counts → AreaPair → ℕ
  | [], _ => 0
  | (k', v) :: rest, k => if k' = k then v else countVal rest k

/-- One iteration of the paper-level counting loop: papers with fewer than
two resolved fields are skipped, otherwise every combination of the sorted
distinct fields is counted once. -/
def pageStep (acc : Counts) (fields : List PyStr) : Counts :=
  if fields.length < 2 then acc else bumpAll (pairsOf (sortedSet fields)) acc

/-- The paper-level counting loop of `collaboration_matrix_paper_level`. -/
def countsOf (fieldsPerPaper : List (List PyStr)) : Counts :=
  fieldsPerPaper.foldl pageStep []

/-! ### The labelled matrix -/

/-- A labelled square matrix: one label list indexes both rows and columns
(the source always builds and slices rows and columns with the same labels,
so every matrix in the pipeline is square by construction).  `entry` gives
the cell value at a pair of labels. -/
structure LMatrix where
  labels : List PyStr
  entry : PyStr → PyStr → ℕ

/-- `fields_all = sorted({x for pair in counts for x in pair})` followed by
the zero-initialised DataFrame and the `mat.loc[a,b] += v; mat.loc[b,a] += v`
loop: the cell at `(x, y)` ends up holding `counts.get((x,y),0) + counts.get((y,x),0)`. -/
def matrixOfCounts (c : Counts) : LMatrix :=
  { labels := sortedSet ((c.map fun kv => [kv.1.1, kv.1.2]).flatten)
    entry := fun x y => countVal c (x, y) + countVal c (y, x) }

/-- Per-paper resolved fields: parse the author list, look each author up in
the roster, and silently drop unresolved names (`get` returns NaN, which the
`pd.notna` filter removes). -/
def paper_fields (roster : List (PyStr × PyStr)) (s : Option PyStr) : List PyStr :=
  (parse_authors s).filterMap fun a => rosterGet roster a

/-- The matrix-building pipeline from a roster and a list of raw author
fields (one per publication). -/
def build_matrix_from (roster : List (PyStr × PyStr)) (pubs : List (Option PyStr)) : LMatrix :=
  matrixOfCounts (countsOf (pubs.map fun s => paper_fields roster s))

/-- The body of `collaboration_matrix_paper_level` after its schema checks. -/
def build_matrix_core (df_papers cen_df : DataTable) : LMatrix :=
  build_matrix_from (build_name_to_field cen_df) (getCol df_papers (pyOf "authors_full"))

/-! ### Schema checks and the two entry points -/

inductive PyError where
  /-- page: `ValueError(f"df non contiene le colonne richieste: ...")` -/
  | valueErrorDf (missing : List PyStr)
  /-- page: `ValueError(f"cen non contiene le colonne richieste: ...")` -/
  | valueErrorCen (missing : List PyStr)
  /-- app_V0: `KeyError` from `cen2["full_name"]` / `cen2["Area_desc"]` inside
  `build_name_to_field`, which runs before any explicit check -/
  | keyError (col : PyStr)
  /-- app_V0: `ValueError("df must contain a column named 'authors_full'.")` -/
  | valueErrorDfV0
  /-- app_V0: `ValueError("cen must contain columns: 'full_name' and 'Area_desc'.")` -/
  | valueErrorCenV0
  /-- app_V0: `ValueError("mode must be 'pairwise' or 'paper_level'")` -/
  | valueErrorMode
deriving DecidableEq

def requiredCen : List PyStr := [pyOf "full_name", pyOf "Area_desc"]

/-- `collaboration_matrix_paper_level` of the page: check `authors_full` on
the publications table, then `full_name`/`Area_desc` on the census table,
naming the missing columns in the raised error; only then build the matrix. -/
def collaboration_matrix_paper_level (df_papers cen_df : DataTable) :
    Except PyError LMatrix :=
  if pyOf "authors_full" ∈ colNames df_papers then
    if pyOf "full_name" ∈ colNames cen_df ∧ pyOf "Area_desc" ∈ colNames cen_df then
      Except.ok (build_matrix_core df_papers cen_df)
    else
      Except.error (PyError.valueErrorCen
        (requiredCen.filter fun c => decide (c ∉ colNames cen_df)))
  else Except.error (PyError.valueErrorDf [pyOf "authors_full"])

/-! ### Matrix transforms -/

/-- `apply_threshold`: zero every cell strictly below `min_value`. -/
def apply_threshold (mat : LMatrix) (min_value : ℕ) : LMatrix :=
  { labels := mat.labels
    entry := fun a b => if mat.entry a b < min_value then 0 else mat.entry a b }

/-- `filter_fields`: empty request gives the 0×0 matrix; otherwise keep the
requested labels that occur in the index, in requested order, slicing rows
and columns simultaneously. -/
def filter_fields (mat : LMatrix) (include_fields : List PyStr) : LMatrix :=
  if include_fields = [] then { labels := [], entry := mat.entry }
  else
    { labels := include_fields.filter fun f => decide (f ∈ mat.labels)
      entry := mat.entry }

/-- `mat.sum(axis=1)` at one row label. -/
def rowSum (mat : LMatrix) (a : PyStr) : ℕ :=
  (mat.labels.map fun b => mat.entry a b).sum

/-- The module-level prune block: `if not mat.empty: nonzero = (mat.sum(axis=1) > 0);
mat = mat.loc[nonzero, nonzero]`. -/
def pruneEmpty (mat : LMatrix) : LMatrix :=
  if mat.labels = [] then mat
  else
    { labels := mat.labels.filter fun a => decide (0 < rowSum mat a)
      entry := mat.entry }

inductive MatTransform where
  | thresholdT (v : ℕ)
  | filterT (fieldsList : List PyStr)
  | pruneT

def applyTransform : MatTransform → LMatrix → LMatrix
  | MatTransform.thresholdT v, m => apply_threshold m v
  | MatTransform.filterT fs, m => filter_fields m fs
  | MatTransform.pruneT, m => pruneEmpty m

def applyTransforms (ts : List MatTransform) (m : LMatrix) : LMatrix :=
  ts.foldl (fun acc t => applyTransform t acc) m

/-! ### The `app_V0` variant -/

/-- Python `sorted((f1, f2))` on a two-element tuple. -/
def sortPair (p : AreaPair) : AreaPair :=
  if strLt p.2 p.1 then (p.2, p.1) else (p.1, p.2)

/-- One iteration of `collaboration_matrix`'s counting loop in `app_V0`:
the bad-mode `ValueError` is raised inside the loop, so it only fires for a
paper that actually reaches the mode dispatch (length ≥ 2). -/
def v0Step (mode : PyStr) (acc : Except PyError Counts) (fields : List PyStr) :
    Except PyError Counts :=
  match acc with
  | Except.error e => Except.error e
  | Except.ok c =>
    if fields.length < 2 then Except.ok c
    else if mode = pyOf "pairwise" then
      Except.ok (bumpAll ((pairsOf fields).map sortPair) c)
    else if mode = pyOf "paper_level" then
      Except.ok (bumpAll (pairsOf (sortedSet fields)) c)
    else Except.error PyError.valueErrorMode

def countsV0 (mode : PyStr) (fieldsPerPaper : List (List PyStr)) :
    Except PyError Counts :=
  fieldsPerPaper.foldl (v0Step mode) (Except.ok [])

/-- `collaboration_matrix(df, cen, mode)` of `app_V0`: `build_name_to_field`
runs first (missing census columns surface as a `KeyError` there), then the
explicit column checks, then the mode-dispatching counting loop. -/
def collaboration_matrix (df cen : DataTable) (mode : PyStr) : Except PyError LMatrix :=
  if pyOf "full_name" ∈ colNames cen then
    if pyOf "Area_desc" ∈ colNames cen then
      if pyOf "authors_full" ∈ colNames df then
        if pyOf "full_name" ∈ colNames cen ∧ pyOf "Area_desc" ∈ colNames cen then
          match countsV0 mode ((getCol df (pyOf "authors_full")).map fun s =>
              paper_fields (build_name_to_field cen) s) with
          | Except.error e => Except.error e
          | Except.ok c => Except.ok (matrixOfCounts c)
        else Except.error PyError.valueErrorCenV0
      else Except.error PyError.valueErrorDfV0
    else Except.error (PyError.keyError (pyOf "Area_desc"))
  else Except.error (PyError.keyError (pyOf "full_name"))

/-! ### Sorting facts: membership and duplicate-freeness survive `sorted(set(...))` -/

theorem insertSorted_perm (x : PyStr) (l : List PyStr) :
    List.Perm (insertSorted x l) (x :: l) := by
  induction l with
  | nil => exact List.Perm.refl _
  | cons y ys ih =>
    by_cases h : strLt y x
    · simp only [insertSorted, h, if_true]
      exact (ih.cons y).trans (List.Perm.swap x y ys)
    · simp only [insertSorted, h, Bool.false_eq_true, if_false]
      exact List.Perm.refl _

theorem sortStrs_perm (l : List PyStr) : List.Perm (sortStrs l) l := by
  induction l with
  | nil => exact List.Perm.refl _
  | cons x xs ih => exact (insertSorted_perm x (sortStrs xs)).trans (ih.cons x)

theorem mem_sortedSet {x : PyStr} {l : List PyStr} : x ∈ sortedSet l ↔ x ∈ l := by
  rw [sortedSet, (sortStrs_perm l.dedup).mem_iff, List.mem_dedup]

theorem nodup_sortedSet (l : List PyStr) : (sortedSet l).Nodup :=
  ((sortStrs_perm l.dedup).nodup_iff).mpr (List.nodup_dedup l)

/-! ### Accounting for the counts dictionary -/

theorem countVal_bump (k k' : AreaPair) (c : Counts) :
    countVal (bump k c) k' = countVal c k' + (if k' = k then 1 else 0) := by
  induction c with
  | nil =>
    by_cases h : k' = k
    · subst h; simp [bump, countVal]
    · have h' : ¬k = k' := fun hh => h hh.symm
      simp [bump, countVal, h, h']
  | cons kv rest ih =>
    obtain ⟨k₀, v₀⟩ := kv
    by_cases h0 : k₀ = k
    · subst h0
      by_cases h1 : k' = k₀
      · subst h1; simp [bump, countVal]
      · have h1' : ¬k₀ = k' := fun hh => h1 hh.symm
        simp [bump, countVal, h1, h1']
    · by_cases h1 : k₀ = k'
      · subst h1
        simp [bump, countVal, h0]
      · simp [bump, countVal, h0, h1, ih]

theorem countVal_bumpAll (ps : List AreaPair) (c : Counts) (k : AreaPair) :
    countVal (bumpAll ps c) k = countVal c k + ps.countP (fun k' => decide (k' = k)) := by
  induction ps generalizing c with
  | nil => simp [bumpAll, List.countP_nil]
  | cons q qs ih =>
    show countVal (bumpAll qs (bump q c)) k = _
    rw [ih (bump q c), countVal_bump, List.countP_cons]
    simp only [decide_eq_true_eq]
    by_cases h : k = q
    · rw [if_pos h, if_pos h.symm]; omega
    · rw [if_neg h, if_neg (fun hh => h hh.symm)]; omega

theorem countVal_countsOf (fpp : List (List PyStr)) (k : AreaPair) :
    countVal (countsOf fpp) k =
      (fpp.map fun fields =>
        if fields.length < 2 then 0
        else (pairsOf (sortedSet fields)).countP (fun k' => decide (k' = k))).sum := by
  suffices h : ∀ (c : Counts), countVal (fpp.foldl pageStep c) k =
      countVal c k + (fpp.map fun fields =>
        if fields.length < 2 then 0
        else (pairsOf (sortedSet fields)).countP (fun k' => decide (k' = k))).sum by
    simpa [countsOf, countVal] using h []
  induction fpp with
  | nil => intro c; simp
  | cons fields rest ih =>
    intro c
    show countVal (rest.foldl pageStep (pageStep c fields)) k = _
    rw [ih (pageStep c fields)]
    by_cases h2 : fields.length < 2
    · simp [pageStep, h2]
    · simp only [pageStep, h2, if_false, List.map_cons, List.sum_cons]
      rw [countVal_bumpAll]
      omega

/-! ### What a single paper contributes -/

theorem countP_map_pair (a x y : PyStr) (rest : List PyStr) :
    ((rest.map fun b => (a, b)).countP fun k' => decide (k' = (x, y))) =
      if x = a then rest.countP (fun b => decide (b = y)) else 0 := by
  induction rest with
  | nil => by_cases h : x = a <;> simp [List.countP_nil, h]
  | cons b bs ih =>
    simp only [List.map_cons, List.countP_cons, ih, decide_eq_true_eq, Prod.mk.injEq]
    by_cases hx : x = a
    · subst hx
      by_cases hb : b = y
      · subst hb; simp
      · simp [hb]
    · have hx' : ¬a = x := fun hh => hx hh.symm
      simp [hx, hx']

theorem countP_eq_mem_of_nodup {l : List PyStr} (hl : l.Nodup) (y : PyStr) :
    (l.countP fun b => decide (b = y)) = if y ∈ l then 1 else 0 := by
  induction l with
  | nil => simp [List.countP_nil]
  | cons b bs ih =>
    rcases List.nodup_cons.mp hl with ⟨hb, hbs⟩
    rw [List.countP_cons, ih hbs]
    simp only [decide_eq_true_eq, List.mem_cons]
    by_cases hby : b = y
    · subst hby
      simp [hb]
    · have hby' : ¬y = b := fun hh => hby hh.symm
      simp [hby, hby']

theorem pairsOf_count_pair {l : List PyStr} (hl : l.Nodup) (x y : PyStr) :
    ((pairsOf l).countP fun k' => decide (k' = (x, y))) +
      ((pairsOf l).countP fun k' => decide (k' = (y, x))) =
      if x ≠ y ∧ x ∈ l ∧ y ∈ l then 1 else 0 := by
  induction l with
  | nil => simp [pairsOf, List.countP_nil]
  | cons a rest ih =>
    rcases List.nodup_cons.mp hl with ⟨ha, hrest⟩
    have hih := ih hrest
    simp only [pairsOf, List.countP_append, countP_map_pair,
      countP_eq_mem_of_nodup hrest, List.mem_cons, ne_eq] at hih ⊢
    by_cases hxy : x = y
    · subst hxy
      rw [if_neg (fun hh : ¬(x = x) ∧ x ∈ rest ∧ x ∈ rest => hh.1 rfl)] at hih
      rw [if_neg (fun hh : ¬(x = x) ∧ (x = a ∨ x ∈ rest) ∧ (x = a ∨ x ∈ rest) =>
        hh.1 rfl)]
      by_cases hxa : x = a
      · subst hxa
        rw [if_pos rfl, if_neg ha]
        omega
      · rw [if_neg hxa]
        omega
    · by_cases hxa : x = a
      · rw [if_neg (fun hh : ¬(x = y) ∧ x ∈ rest ∧ y ∈ rest => ha (hxa ▸ hh.2.1))] at hih
        by_cases hya : y = a
        · exact absurd (hxa.trans hya.symm) hxy
        · by_cases hyr : y ∈ rest
          · rw [if_pos hxa, if_pos hyr, if_neg hya,
              if_pos (⟨hxy, Or.inl hxa, Or.inr hyr⟩ :
                ¬(x = y) ∧ (x = a ∨ x ∈ rest) ∧ (y = a ∨ y ∈ rest))]
            omega
          · rw [if_pos hxa, if_neg hyr, if_neg hya,
              if_neg (fun hh : ¬(x = y) ∧ (x = a ∨ x ∈ rest) ∧ (y = a ∨ y ∈ rest) =>
                hh.2.2.elim hya hyr)]
            omega
      · by_cases hya : y = a
        · rw [if_neg (fun hh : ¬(x = y) ∧ x ∈ rest ∧ y ∈ rest =>
            ha (hya ▸ hh.2.2))] at hih
          by_cases hxr : x ∈ rest
          · rw [if_neg hxa, if_pos hya, if_pos hxr,
              if_pos (⟨hxy, Or.inr hxr, Or.inl hya⟩ :
                ¬(x = y) ∧ (x = a ∨ x ∈ rest) ∧ (y = a ∨ y ∈ rest))]
            omega
          · rw [if_neg hxa, if_pos hya, if_neg hxr,
              if_neg (fun hh : ¬(x = y) ∧ (x = a ∨ x ∈ rest) ∧ (y = a ∨ y ∈ rest) =>
                hh.2.1.elim hxa hxr)]
            omega
        · rw [if_neg hxa, if_neg hya]
          by_cases hxr : x ∈ rest
          · by_cases hyr : y ∈ rest
            · rw [if_pos (⟨hxy, hxr, hyr⟩ : ¬(x = y) ∧ x ∈ rest ∧ y ∈ rest)] at hih
              rw [if_pos (⟨hxy, Or.inr hxr, Or.inr hyr⟩ :
                ¬(x = y) ∧ (x = a ∨ x ∈ rest) ∧ (y = a ∨ y ∈ rest))]
              omega
            · rw [if_neg (fun hh : ¬(x = y) ∧ x ∈ rest ∧ y ∈ rest => hyr hh.2.2)] at hih
              rw [if_neg (fun hh : ¬(x = y) ∧ (x = a ∨ x ∈ rest) ∧ (y = a ∨ y ∈ rest) =>
                hh.2.2.elim hya hyr)]
              omega
          · rw [if_neg (fun hh : ¬(x = y) ∧ x ∈ rest ∧ y ∈ rest => hxr hh.2.1)] at hih
            rw [if_neg (fun hh : ¬(x = y) ∧ (x = a ∨ x ∈ rest) ∧ (y = a ∨ y ∈ rest) =>
              hh.2.1.elim hxa hxr)]
            omega

/-! ### The per-cell meaning of the built matrix -/

theorem two_mem_le_length {l : List PyStr} {x y : PyStr}
    (hx : x ∈ l) (hy : y ∈ l) (hxy : x ≠ y) : 2 ≤ l.length := by
  cases l with
  | nil => cases hx
  | cons a rest =>
    cases rest with
    | nil =>
      rcases List.mem_singleton.mp hx with rfl
      rcases List.mem_singleton.mp hy with rfl
      exact absurd rfl hxy
    | cons b rest' => simp only [List.length_cons]; omega

/-- The cell at `(x, y)` of the matrix built from per-paper resolved field
lists counts exactly the papers contributing two distinct areas `x ≠ y`. -/
theorem entry_countsOf (fpp : List (List PyStr)) (x y : PyStr) :
    (matrixOfCounts (countsOf fpp)).entry x y =
      fpp.countP fun fields => decide (x ≠ y ∧ x ∈ fields ∧ y ∈ fields) := by
  show countVal (countsOf fpp) (x, y) + countVal (countsOf fpp) (y, x) = _
  rw [countVal_countsOf, countVal_countsOf]
  induction fpp with
  | nil => simp [List.countP_nil]
  | cons fields rest ih =>
    simp only [List.map_cons, List.sum_cons, List.countP_cons, decide_eq_true_eq]
    rw [show ∀ a b c d : ℕ, (a + b) + (c + d) = (b + d) + (a + c) from fun a b c d => by
      omega]
    rw [ih]
    congr 1
    by_cases h2 : fields.length < 2
    · rw [if_pos h2, if_pos h2]
      rw [if_neg (fun hh : x ≠ y ∧ x ∈ fields ∧ y ∈ fields =>
        absurd (two_mem_le_length hh.2.1 hh.2.2 hh.1) (by omega))]
    · rw [if_neg h2, if_neg h2, pairsOf_count_pair (nodup_sortedSet fields)]
      by_cases hc : x ≠ y ∧ x ∈ fields ∧ y ∈ fields
      · rw [if_pos ⟨hc.1, mem_sortedSet.mpr hc.2.1, mem_sortedSet.mpr hc.2.2⟩,
          if_pos hc]
      · rw [if_neg (fun hh : x ≠ y ∧ x ∈ sortedSet fields ∧ y ∈ sortedSet fields =>
          hc ⟨hh.1, mem_sortedSet.mp hh.2.1, mem_sortedSet.mp hh.2.2⟩), if_neg hc]

theorem entry_build_matrix_from (roster : List (PyStr × PyStr))
    (pubs : List (Option PyStr)) (x y : PyStr) :
    (build_matrix_from roster pubs).entry x y =
      pubs.countP fun s => decide
        (x ≠ y ∧ x ∈ paper_fields roster s ∧ y ∈ paper_fields roster s) := by
  rw [build_matrix_from, entry_countsOf, List.countP_map]
  rfl

/-! ### Which labels the built matrix carries -/

theorem countsOf_pos (fpp : List (List PyStr)) :
    ∀ kv ∈ countsOf fpp, 1 ≤ kv.2 := by
  have hbump : ∀ (k : AreaPair) (c : Counts),
      (∀ kv ∈ c, 1 ≤ kv.2) → ∀ kv ∈ bump k c, 1 ≤ kv.2 := by
    intro k c
    induction c with
    | nil => intro _ kv hkv; rcases List.mem_singleton.mp hkv with rfl; exact Nat.le_refl 1
    | cons kv₀ rest ih =>
      obtain ⟨k₀, v₀⟩ := kv₀
      intro hc kv hkv
      by_cases h : k₀ = k
      · simp only [bump, h, if_pos rfl] at hkv
        rcases List.mem_cons.mp hkv with rfl | hmem
        · exact Nat.le_add_left 1 v₀
        · exact hc kv (List.mem_cons_of_mem _ hmem)
      · simp only [bump, h, if_neg, Bool.false_eq_true] at hkv
        rcases List.mem_cons.mp hkv with rfl | hmem
        · exact hc (k₀, v₀) (List.mem_cons_self _ _)
        · exact ih (fun u hu => hc u (List.mem_cons_of_mem _ hu)) kv hmem
  have hAll : ∀ (ps : List AreaPair) (c : Counts),
      (∀ kv ∈ c, 1 ≤ kv.2) → ∀ kv ∈ bumpAll ps c, 1 ≤ kv.2 := by
    intro ps
    induction ps with
    | nil => intro c hc; exact hc
    | cons q qs ih => intro c hc; exact ih (bump q c) (hbump q c hc)
  have hfold : ∀ (fpp : List (List PyStr)) (c : Counts),
      (∀ kv ∈ c, 1 ≤ kv.2) → ∀ kv ∈ fpp.foldl pageStep c, 1 ≤ kv.2 := by
    intro fpp
    induction fpp with
    | nil => intro c hc; exact hc
    | cons fields rest ih =>
      intro c hc
      refine ih (pageStep c fields) ?_
      unfold pageStep
      by_cases h2 : fields.length < 2
      · rw [if_pos h2]; exact hc
      · rw [if_neg h2]; exact hAll _ c hc
  exact hfold fpp [] (by intro kv hkv; cases hkv)

theorem countVal_pos_iff {c : Counts} (hc : ∀ kv ∈ c, 1 ≤ kv.2) (k : AreaPair) :
    1 ≤ countVal c k ↔ ∃ kv ∈ c, kv.1 = k := by
  induction c with
  | nil => simp [countVal]
  | cons kv₀ rest ih =>
    obtain ⟨k₀, v₀⟩ := kv₀
    have hrest := ih fun u hu => hc u (List.mem_cons_of_mem _ hu)
    by_cases h : k₀ = k
    · subst h
      simp only [countVal, if_pos rfl]
      constructor
      · intro _
        exact ⟨(k₀, v₀), List.mem_cons_self _ _, rfl⟩
      · intro _
        exact hc (k₀, v₀) (List.mem_cons_self _ _)
    · simp only [countVal, if_neg h]
      rw [hrest]
      constructor
      · rintro ⟨kv, hkv, hk⟩
        exact ⟨kv, List.mem_cons_of_mem _ hkv, hk⟩
      · rintro ⟨kv, hkv, hk⟩
        rcases List.mem_cons.mp hkv with rfl | hmem
        · exact absurd hk h
        · exact ⟨kv, hmem, hk⟩

theorem mem_labels_matrixOfCounts {c : Counts} {x : PyStr} :
    x ∈ (matrixOfCounts c).labels ↔ ∃ kv ∈ c, x = kv.1.1 ∨ x = kv.1.2 := by
  show x ∈ sortedSet _ ↔ _
  rw [mem_sortedSet]
  constructor
  · intro hx
    rcases List.mem_flatten.mp hx with ⟨L, hL, hxL⟩
    rcases List.mem_map.mp hL with ⟨kv, hkv, rfl⟩
    exact ⟨kv, hkv, by simpa using hxL⟩
  · rintro ⟨kv, hkv, hx⟩
    refine List.mem_flatten.mpr ⟨[kv.1.1, kv.1.2], List.mem_map.mpr ⟨kv, hkv, rfl⟩, ?_⟩
    rcases hx with rfl | rfl <;> simp

theorem mem_labels_iff_entry_pos (roster : List (PyStr × PyStr))
    (pubs : List (Option PyStr)) (x : PyStr) :
    x ∈ (build_matrix_from roster pubs).labels ↔
      ∃ y, 1 ≤ (build_matrix_from roster pubs).entry x y := by
  have hpos : ∀ kv ∈ countsOf (pubs.map fun s => paper_fields roster s), 1 ≤ kv.2 :=
    countsOf_pos _
  constructor
  · intro hx
    rcases mem_labels_matrixOfCounts.mp hx with ⟨kv, hkv, hcomp⟩
    rcases hcomp with h1 | h2
    · refine ⟨kv.1.2, ?_⟩
      have hv : 1 ≤ countVal (countsOf (pubs.map fun s => paper_fields roster s))
          (x, kv.1.2) :=
        (countVal_pos_iff hpos _).mpr ⟨kv, hkv, by rw [h1]⟩
      show 1 ≤ countVal _ (x, kv.1.2) + countVal _ (kv.1.2, x)
      omega
    · refine ⟨kv.1.1, ?_⟩
      have hv : 1 ≤ countVal (countsOf (pubs.map fun s => paper_fields roster s))
          (kv.1.1, x) :=
        (countVal_pos_iff hpos _).mpr ⟨kv, hkv, by rw [h2]⟩
      show 1 ≤ countVal _ (x, kv.1.1) + countVal _ (kv.1.1, x)
      omega
  · rintro ⟨y, hy⟩
    have hy' : 1 ≤ countVal (countsOf (pubs.map fun s => paper_fields roster s)) (x, y) +
        countVal (countsOf (pubs.map fun s => paper_fields roster s)) (y, x) := hy
    by_cases h1 : 1 ≤ countVal (countsOf (pubs.map fun s => paper_fields roster s)) (x, y)
    · rcases (countVal_pos_iff hpos _).mp h1 with ⟨kv, hkv, hk⟩
      exact mem_labels_matrixOfCounts.mpr ⟨kv, hkv, Or.inl (by rw [hk])⟩
    · have h2 : 1 ≤ countVal (countsOf (pubs.map fun s => paper_fields roster s)) (y, x) := by
        omega
      rcases (countVal_pos_iff hpos _).mp h2 with ⟨kv, hkv, hk⟩
      exact mem_labels_matrixOfCounts.mpr ⟨kv, hkv, Or.inr (by rw [hk])⟩

/-! ### Roster lookup: first occurrence wins -/

theorem dedupKeys_find (l : List (PyStr × PyStr)) (seen : List PyStr) (n : PyStr)
    (hn : n ∉ seen) :
    (dedupKeys l seen).find? (fun kv => decide (kv.1 = n)) =
      l.find? (fun kv => decide (kv.1 = n)) := by
  induction l generalizing seen with
  | nil => rfl
  | cons r rest ih =>
    obtain ⟨k, a⟩ := r
    by_cases hk : k ∈ seen
    · rw [show dedupKeys ((k, a) :: rest) seen = dedupKeys rest seen from by
        simp [dedupKeys, hk]]
      rw [ih seen hn]
      have hkn : ¬k = n := fun hh => hn (hh ▸ hk)
      rw [List.find?_cons]
      simp [hkn]
    · rw [show dedupKeys ((k, a) :: rest) seen = (k, a) :: dedupKeys rest (k :: seen) from by
        simp [dedupKeys, hk]]
      by_cases hkn : k = n
      · subst hkn
        rw [List.find?_cons, List.find?_cons]
        simp
      · rw [List.find?_cons, List.find?_cons]
        have hp : decide (k = n) = false := by simp [hkn]
        simp only [hp]
        exact ih (k :: seen) fun hh => (List.mem_cons.mp hh).elim (fun h => hkn h.symm) hn

theorem dedupKeys_nodup (l : List (PyStr × PyStr)) (seen : List PyStr) :
    ((dedupKeys l seen).map Prod.fst).Nodup ∧
      ∀ k ∈ (dedupKeys l seen).map Prod.fst, k ∉ seen := by
  induction l generalizing seen with
  | nil => exact ⟨List.nodup_nil, by intro k hk; cases hk⟩
  | cons r rest ih =>
    obtain ⟨k, a⟩ := r
    by_cases hk : k ∈ seen
    · rw [show dedupKeys ((k, a) :: rest) seen = dedupKeys rest seen from by
        simp [dedupKeys, hk]]
      exact ih seen
    · rw [show dedupKeys ((k, a) :: rest) seen = (k, a) :: dedupKeys rest (k :: seen) from by
        simp [dedupKeys, hk]]
      rcases ih (k :: seen) with ⟨hnd, hdisj⟩
      constructor
      · rw [List.map_cons]
        exact List.nodup_cons.mpr
          ⟨fun hmem => hdisj k hmem (List.mem_cons_self _ _), hnd⟩
      · intro u hu
        rw [List.map_cons] at hu
        rcases List.mem_cons.mp hu with rfl | hmem
        · exact hk
        · exact fun hu' => hdisj u hmem (List.mem_cons_of_mem _ hu')

/-! ### Transforms leave cell values in place (or threshold them pointwise) -/

theorem filter_fields_entry (m : LMatrix) (fs : List PyStr) (a b : PyStr) :
    (filter_fields m fs).entry a b = m.entry a b := by
  by_cases h : fs = [] <;> simp [filter_fields, h]

theorem pruneEmpty_entry (m : LMatrix) (a b : PyStr) :
    (pruneEmpty m).entry a b = m.entry a b := by
  by_cases h : m.labels = [] <;> simp [pruneEmpty, h]

theorem mem_pruneEmpty {m : LMatrix} {a : PyStr} :
    a ∈ (pruneEmpty m).labels ↔ a ∈ m.labels ∧ 0 < rowSum m a := by
  by_cases h : m.labels = []
  · simp [pruneEmpty, h]
  · simp [pruneEmpty, h, List.mem_filter]

theorem countP_const_false {α : Type} (l : List α) :
    l.countP (fun _ => false) = 0 := by
  induction l with
  | nil => rfl
  | cons a rest ih => rw [List.countP_cons]; simp [ih]

theorem build_matrix_core_symm (df_papers cen_df : DataTable) (a b : PyStr) :
    (build_matrix_core df_papers cen_df).entry a b =
      (build_matrix_core df_papers cen_df).entry b a := by
  rw [build_matrix_core, entry_build_matrix_from, entry_build_matrix_from]
  congr 1
  funext s
  rw [decide_eq_decide]
  constructor
  · rintro ⟨h1, h2, h3⟩; exact ⟨fun hh => h1 hh.symm, h3, h2⟩
  · rintro ⟨h1, h2, h3⟩; exact ⟨fun hh => h1 hh.symm, h3, h2⟩

theorem build_matrix_core_diag (df_papers cen_df : DataTable) (a : PyStr) :
    (build_matrix_core df_papers cen_df).entry a a = 0 := by
  rw [build_matrix_core, entry_build_matrix_from]
  rw [show (fun s : Option PyStr => decide (a ≠ a ∧
      a ∈ paper_fields (build_name_to_field cen_df) s ∧
      a ∈ paper_fields (build_name_to_field cen_df) s)) = fun _ => false from
    funext fun s => by simp]
  exact countP_const_false _

theorem applyTransforms_preserves (ts : List MatTransform) (m : LMatrix)
    (hsym : ∀ a b, m.entry a b = m.entry b a) (hdiag : ∀ a, m.entry a a = 0) :
    (∀ a b, (applyTransforms ts m).entry a b = (applyTransforms ts m).entry b a) ∧
      ∀ a, (applyTransforms ts m).entry a a = 0 := by
  induction ts generalizing m with
  | nil => exact ⟨hsym, hdiag⟩
  | cons t rest ih =>
    show (∀ a b, (applyTransforms rest (applyTransform t m)).entry a b =
        (applyTransforms rest (applyTransform t m)).entry b a) ∧ _
    refine ih (applyTransform t m) ?_ ?_
    · cases t with
      | thresholdT v =>
        intro a b
        show (if m.entry a b < v then 0 else m.entry a b) =
          (if m.entry b a < v then 0 else m.entry b a)
        rw [hsym a b]
      | filterT fs =>
        intro a b
        rw [show applyTransform (MatTransform.filterT fs) m = filter_fields m fs from rfl,
          filter_fields_entry, filter_fields_entry]
        exact hsym a b
      | pruneT =>
        intro a b
        rw [show applyTransform MatTransform.pruneT m = pruneEmpty m from rfl,
          pruneEmpty_entry, pruneEmpty_entry]
        exact hsym a b
    · cases t with
      | thresholdT v =>
        intro a
        show (if m.entry a a < v then 0 else m.entry a a) = 0
        rw [hdiag a]
        simp
      | filterT fs =>
        intro a
        rw [show applyTransform (MatTransform.filterT fs) m = filter_fields m fs from rfl,
          filter_fields_entry]
        exact hdiag a
      | pruneT =>
        intro a
        rw [show applyTransform MatTransform.pruneT m = pruneEmpty m from rfl,
          pruneEmpty_entry]
        exact hdiag a

theorem pairsOf_length (l : List PyStr) : (pairsOf l).length = l.length.choose 2 := by
  induction l with
  | nil => rfl
  | cons a rest ih =>
    simp only [pairsOf, List.length_append, List.length_map, List.length_cons, ih]
    rw [show (rest.length + 1).choose 2 = rest.length.choose 1 + rest.length.choose 2 from
      Nat.choose_succ_succ rest.length 1]
    rw [Nat.choose_one_right]

/-! ## Claim theorems -/

/-- C9: name normalisation is idempotent —
`normalise_name(normalise_name(s)) == normalise_name(s)` for every string
(including empty and all-whitespace ones), and missing/NaN input yields the
empty string. -/
theorem c9_normalise_idempotent :
    (∀ s : PyStr,
        normalise_name (some (normalise_name (some s))) = normalise_name (some s)) ∧
      normalise_name none = [] :=
  ⟨fun s => collapseWs_idem s, rfl⟩

/-- C7: `filter_fields` keeps exactly the requested labels that occur in the
matrix index, in requested order, and leaves every cell value unchanged; an
empty request or an empty intersection therefore yields the empty (0×0)
matrix, with no error possible (the function is total). -/
theorem c7_filter_fields_sublist (mat : LMatrix) (include_fields : List PyStr) :
    (filter_fields mat include_fields).labels =
        include_fields.filter (fun f => decide (f ∈ mat.labels)) ∧
      ∀ a b, (filter_fields mat include_fields).entry a b = mat.entry a b := by
  constructor
  · by_cases h : include_fields = []
    · subst h; simp [filter_fields]
    · simp [filter_fields, h]
  · intro a b
    exact filter_fields_entry mat include_fields a b

/-- C5: raising the threshold never increases a cell, a row whose sum is zero
after thresholding at `v` still has zero sum after thresholding at any
`v' ≥ v`, and a row pruned (absent after `pruneEmpty`) at `v` stays pruned at
`v'` — raising the threshold never re-introduces a pruned row/column. -/
theorem c5_threshold_monotone (mat : LMatrix) (v v' : ℕ) (h : v ≤ v') :
    (∀ a b, (apply_threshold mat v').entry a b ≤ (apply_threshold mat v).entry a b) ∧
      (∀ a, rowSum (apply_threshold mat v) a = 0 →
        rowSum (apply_threshold mat v') a = 0) ∧
      ∀ a, a ∈ (pruneEmpty (apply_threshold mat v')).labels →
        a ∈ (pruneEmpty (apply_threshold mat v)).labels := by
  have hcell : ∀ a b, (apply_threshold mat v').entry a b ≤
      (apply_threshold mat v).entry a b := by
    intro a b
    show (if mat.entry a b < v' then 0 else mat.entry a b) ≤
      (if mat.entry a b < v then 0 else mat.entry a b)
    by_cases h1 : mat.entry a b < v'
    · rw [if_pos h1]; exact Nat.zero_le _
    · rw [if_neg h1, if_neg fun h2 => h1 (lt_of_lt_of_le h2 h)]
  have hrow : ∀ a, rowSum (apply_threshold mat v) a = 0 →
      rowSum (apply_threshold mat v') a = 0 := by
    intro a ha
    rw [rowSum, List.sum_eq_zero_iff] at ha ⊢
    intro n hn
    rcases List.mem_map.mp hn with ⟨b, hb, rfl⟩
    have h0 : (apply_threshold mat v).entry a b = 0 :=
      ha _ (List.mem_map.mpr ⟨b, hb, rfl⟩)
    exact Nat.le_zero.mp (h0 ▸ hcell a b)
  refine ⟨hcell, hrow, ?_⟩
  intro a ha
  rcases mem_pruneEmpty.mp ha with ⟨hmem, hpos⟩
  refine mem_pruneEmpty.mpr ⟨hmem, ?_⟩
  by_contra h0
  have hz : rowSum (apply_threshold mat v) a = 0 := by omega
  have := hrow a hz
  omega

def matC5 : LMatrix := { labels := [pyOf "A", pyOf "B"], entry := fun _ _ => 1 }

/-- Witness for C5 at the concrete matrix `matC5` and thresholds 1 ≤ 2. -/
theorem c5_threshold_monotone_witness :
    1 ≤ 2 ∧
      ((∀ a b, (apply_threshold matC5 2).entry a b ≤ (apply_threshold matC5 1).entry a b) ∧
        (∀ a, rowSum (apply_threshold matC5 1) a = 0 →
          rowSum (apply_threshold matC5 2) a = 0) ∧
        ∀ a, a ∈ (pruneEmpty (apply_threshold matC5 2)).labels →
          a ∈ (pruneEmpty (apply_threshold matC5 1)).labels) :=
  ⟨by decide, c5_threshold_monotone matC5 1 2 (by decide)⟩

/-- C4: every matrix built by the pipeline, and the result of any sequence of
`apply_threshold`, `filter_fields` and zero-sum pruning applied to it, is
symmetric with an all-zero diagonal.  (Squareness is structural in this
embedding: an `LMatrix` carries a single label list that indexes rows and
columns alike, exactly as the source always builds and slices rows and
columns with the same labels.) -/
theorem c4_symmetric_zero_diagonal (df_papers cen_df : DataTable)
    (ts : List MatTransform) :
    (∀ a b, (applyTransforms ts (build_matrix_core df_papers cen_df)).entry a b =
        (applyTransforms ts (build_matrix_core df_papers cen_df)).entry b a) ∧
      ∀ a, (applyTransforms ts (build_matrix_core df_papers cen_df)).entry a a = 0 :=
  applyTransforms_preserves ts _ (build_matrix_core_symm df_papers cen_df)
    (build_matrix_core_diag df_papers cen_df)

/-- C3: appending one publication changes the cell at `(x, y)` by exactly 1
when `x ≠ y` are both among that publication's resolved areas and by 0
otherwise — so a publication with `k` distinct resolved areas increments
exactly the `k*(k-1)/2` unordered pairs of those areas, each by 1 in both
symmetric cells, no matter how many authors share the same pair, while a
publication with fewer than 2 distinct areas (for which no such `x ≠ y`
exist) contributes nothing; unresolved author names never enter
`paper_fields` at all.  The second conjunct counts the incremented
unordered pairs: `C(k,2) = k*(k-1)/2`. -/
theorem c3_paper_level_increment (roster : List (PyStr × PyStr))
    (pubs : List (Option PyStr)) (p : Option PyStr) :
    (∀ x y, (build_matrix_from roster (pubs ++ [p])).entry x y =
        (build_matrix_from roster pubs).entry x y +
          (if x ≠ y ∧ x ∈ paper_fields roster p ∧ y ∈ paper_fields roster p
            then 1 else 0)) ∧
      (pairsOf (sortedSet (paper_fields roster p))).length =
        (sortedSet (paper_fields roster p)).length *
          ((sortedSet (paper_fields roster p)).length - 1) / 2 := by
  constructor
  · intro x y
    rw [entry_build_matrix_from, entry_build_matrix_from, List.countP_append]
    congr 1
    simp only [List.map_cons, List.map_nil, List.countP_cons, List.countP_nil,
      decide_eq_true_eq, Nat.zero_add]
  · rw [pairsOf_length, Nat.choose_two_right]

def dfC1 : DataTable :=
  ⟨[(pyOf "authors_full", [some (pyOf "Alice Smith")])]⟩

def cenC1 : DataTable :=
  ⟨[(pyOf "full_name", [some (pyOf "Alice Smith")]),
    (pyOf "Area_desc", [some (pyOf "Biology")])]⟩

/-- C1 counterexample: for a census whose roster maps "Alice Smith" to
"Biology" and a publications table whose single paper has the lone author
"Alice Smith", the roster's value set contains "Biology", yet the built
matrix has an empty index — the index set is NOT the set of distinct areas
in the roster's value set, and areas with no co-occurrence do not appear as
all-zero rows/columns. -/
theorem c1_labels_counterexample :
    build_name_to_field cenC1 = [(pyOf "Alice Smith", pyOf "Biology")] ∧
      pyOf "Biology" ∈ (build_name_to_field cenC1).map Prod.snd ∧
      (build_matrix_core dfC1 cenC1).labels = [] := by
  refine ⟨by decide, by decide, by decide⟩

/-- C1 (amended): the row/column index set of the built matrix is exactly the
set of areas that occur in at least one co-occurrence pair — an area is a
label if and only if some publication resolves it together with a second,
different area.  Areas of the roster that never co-occur are absent (not
all-zero rows/columns). -/
theorem c1_labels_cooccur_amended (df_papers cen_df : DataTable) (x : PyStr) :
    x ∈ (build_matrix_core df_papers cen_df).labels ↔
      ∃ y, y ≠ x ∧ ∃ s ∈ getCol df_papers (pyOf "authors_full"),
        x ∈ paper_fields (build_name_to_field cen_df) s ∧
        y ∈ paper_fields (build_name_to_field cen_df) s := by
  rw [build_matrix_core, mem_labels_iff_entry_pos]
  constructor
  · rintro ⟨y, hy⟩
    rw [entry_build_matrix_from] at hy
    rcases List.countP_pos_iff.mp hy with ⟨s, hs, hpred⟩
    rw [decide_eq_true_eq] at hpred
    exact ⟨y, fun hh => hpred.1 hh.symm, s, hs, hpred.2.1, hpred.2.2⟩
  · rintro ⟨y, hyx, s, hs, hxs, hys⟩
    refine ⟨y, ?_⟩
    rw [entry_build_matrix_from]
    refine List.countP_pos_iff.mpr ⟨s, hs, ?_⟩
    rw [decide_eq_true_eq]
    exact ⟨fun hh => hyx hh.symm, hxs, hys⟩

def exC2 : PyStr := pyOf "Alice Smith; Alice Smith"

/-- C2 counterexample: `parse_authors` does NOT split on semicolons — on the
input `"Alice Smith; Alice Smith"` it returns the single token
`"Alice Smith; Alice Smith"`, not two tokens normalising to the same name. -/
theorem c2_semicolon_counterexample :
    parse_authors (some exC2) = [exC2] ∧ (parse_authors (some exC2)).length ≠ 2 := by
  refine ⟨by decide, by decide⟩

def rosterC2 : List (PyStr × PyStr) :=
  [(pyOf "Alice Smith", pyOf "Biology"), (pyOf "Bob Jones", pyOf "Physics")]

/-- C2 (amended): `parse_authors` always splits on commas and never on
semicolons — no returned token contains a comma, while the semicolon-joined
input `"Alice Smith; Alice Smith"` comes back as one single token.  That
token matches no roster name, so the publication resolves to no areas at all
and contributes nothing: the matrix built from it is empty and all-zero. -/
theorem c2_comma_only_amended :
    (∀ s : PyStr, (parse_authors (some s)).all (fun t => decide (',' ∉ t)) = true) ∧
      parse_authors (some exC2) = [exC2] ∧
      (build_matrix_from rosterC2 [some exC2]).labels = [] ∧
      ∀ x y, (build_matrix_from rosterC2 [some exC2]).entry x y = 0 := by
  refine ⟨?_, by decide, by decide, ?_⟩
  · intro s
    rw [List.all_eq_true]
    intro t ht
    have ht' := (List.mem_filter.mp ht).1
    rcases List.mem_map.mp ht' with ⟨t₀, ht₀, rfl⟩
    rw [decide_eq_true_eq]
    intro hcomma
    rcases mem_collapseWs (show ',' ∈ collapseWs t₀ from hcomma) with h | h
    · exact absurd h (by decide)
    · have hfalse := (mem_splitP ht₀ ',' h).1
      simp at hfalse
  · intro x y
    show countVal (countsOf ([some exC2].map fun s => paper_fields rosterC2 s)) (x, y) +
        countVal (countsOf ([some exC2].map fun s => paper_fields rosterC2 s)) (y, x) = 0
    rw [show countsOf ([some exC2].map fun s => paper_fields rosterC2 s) = [] from by
      decide]
    rfl

/-- C8: the roster built from any census maps a normalised name to the area
of the FIRST row (in original row order) whose normalised name matches and
whose normalised name and area are both non-empty — rows with an empty
normalised field are dropped, later duplicate names are discarded, and the
roster's keys are duplicate-free. -/
theorem c8_roster_first_wins (cen_df : DataTable) (n : PyStr) :
    rosterGet (build_name_to_field cen_df) n =
        (((((getCol cen_df (pyOf "full_name")).zip
            (getCol cen_df (pyOf "Area_desc"))).map
          fun r => (collapseWs (strOfCell r.1), collapseWs (strOfCell r.2))).filter
          (fun r => decide (r.1 ≠ []) && decide (r.2 ≠ []))).find?
          (fun kv => decide (kv.1 = n))).map Prod.snd ∧
      ((build_name_to_field cen_df).map Prod.fst).Nodup := by
  constructor
  · show ((dedupKeys _ []).find? _).map Prod.snd = _
    rw [dedupKeys_find _ [] n (by intro h; cases h)]
  · exact (dedupKeys_nodup _ []).1

/-- C6: `collaboration_matrix_paper_level` fails with a `ValueError` naming
exactly the missing required columns if and only if the publications table
lacks `authors_full` or the census lacks `full_name`/`Area_desc`; when it
succeeds the full matrix is returned, and when it fails no matrix value
exists at all (the checks precede every roster/matrix computation). -/
theorem c6_schema_check (df_papers cen_df : DataTable) :
    match collaboration_matrix_paper_level df_papers cen_df with
    | Except.ok m =>
        (pyOf "authors_full" ∈ colNames df_papers ∧
          pyOf "full_name" ∈ colNames cen_df ∧ pyOf "Area_desc" ∈ colNames cen_df) ∧
        m = build_matrix_core df_papers cen_df
    | Except.error (PyError.valueErrorDf missing) =>
        pyOf "authors_full" ∉ colNames df_papers ∧ missing = [pyOf "authors_full"]
    | Except.error (PyError.valueErrorCen missing) =>
        pyOf "authors_full" ∈ colNames df_papers ∧
        ¬(pyOf "full_name" ∈ colNames cen_df ∧ pyOf "Area_desc" ∈ colNames cen_df) ∧
        missing = requiredCen.filter (fun c => decide (c ∉ colNames cen_df)) ∧
        missing ≠ []
    | Except.error _ => False := by
  unfold collaboration_matrix_paper_level
  by_cases h1 : pyOf "authors_full" ∈ colNames df_papers
  · rw [if_pos h1]
    by_cases h2 : pyOf "full_name" ∈ colNames cen_df ∧ pyOf "Area_desc" ∈ colNames cen_df
    · rw [if_pos h2]
      exact ⟨⟨h1, h2.1, h2.2⟩, rfl⟩
    · rw [if_neg h2]
      refine ⟨h1, h2, rfl, ?_⟩
      intro hnil
      rw [List.filter_eq_nil_iff] at hnil
      have hfn := hnil (pyOf "full_name") (List.mem_cons_self _ _)
      have had := hnil (pyOf "Area_desc") (List.mem_cons_of_mem _ (List.mem_cons_self _ _))
      simp only [decide_eq_true_eq, not_not] at hfn had
      exact h2 ⟨hfn, had⟩
  · rw [if_neg h1]
    exact ⟨h1, rfl⟩

theorem countsV0_paper_level (fpp : List (List PyStr)) :
    countsV0 (pyOf "paper_level") fpp = Except.ok (countsOf fpp) := by
  suffices h : ∀ c : Counts,
      fpp.foldl (v0Step (pyOf "paper_level")) (Except.ok c) =
        Except.ok (fpp.foldl pageStep c) from h []
  induction fpp with
  | nil => intro c; rfl
  | cons fields rest ih =>
    intro c
    show rest.foldl _ (v0Step (pyOf "paper_level") (Except.ok c) fields) = _
    have hstep : v0Step (pyOf "paper_level") (Except.ok c) fields =
        Except.ok (pageStep c fields) := by
      show (if fields.length < 2 then Except.ok c
          else if pyOf "paper_level" = pyOf "pairwise" then
            Except.ok (bumpAll ((pairsOf fields).map sortPair) c)
          else if pyOf "paper_level" = pyOf "paper_level" then
            Except.ok (bumpAll (pairsOf (sortedSet fields)) c)
          else Except.error PyError.valueErrorMode) = Except.ok (pageStep c fields)
      unfold pageStep
      by_cases h2 : fields.length < 2
      · rw [if_pos h2, if_pos h2]
      · rw [if_neg h2, if_neg h2,
          if_neg (show ¬(pyOf "paper_level" = pyOf "pairwise") from by decide), if_pos rfl]
    rw [hstep]
    exact ih (pageStep c fields)

/-- C10: on tables that contain the required columns, the `app_V0` variant
`collaboration_matrix(df, cen, mode="paper_level")` succeeds and returns the
very same labelled matrix (identical labels in identical order, identical
cell values) as `collaboration_matrix_paper_level(df, cen)` of the page. -/
theorem c10_v0_matches_page (df cen : DataTable)
    (h1 : pyOf "authors_full" ∈ colNames df)
    (h2 : pyOf "full_name" ∈ colNames cen)
    (h3 : pyOf "Area_desc" ∈ colNames cen) :
    ∃ m, collaboration_matrix df cen (pyOf "paper_level") = Except.ok m ∧
      collaboration_matrix_paper_level df cen = Except.ok m := by
  refine ⟨build_matrix_core df cen, ?_, ?_⟩
  · unfold collaboration_matrix
    rw [if_pos h2, if_pos h3, if_pos h1, if_pos ⟨h2, h3⟩, countsV0_paper_level]
    rfl
  · unfold collaboration_matrix_paper_level
    rw [if_pos h1, if_pos ⟨h2, h3⟩]

def dfC10 : DataTable :=
  ⟨[(pyOf "authors_full", [some (pyOf "Alice Smith, Bob Jones")])]⟩

def cenC10 : DataTable :=
  ⟨[(pyOf "full_name", [some (pyOf "Alice Smith"), some (pyOf "Bob Jones")]),
    (pyOf "Area_desc", [some (pyOf "Biology"), some (pyOf "Physics")])]⟩

/-- Witness for C10 at concrete tables with all required columns present. -/
theorem c10_v0_matches_page_witness :
    (pyOf "authors_full" ∈ colNames dfC10 ∧ pyOf "full_name" ∈ colNames cenC10 ∧
        pyOf "Area_desc" ∈ colNames cenC10) ∧
      ∃ m, collaboration_matrix dfC10 cenC10 (pyOf "paper_level") = Except.ok m ∧
        collaboration_matrix_paper_level dfC10 cenC10 = Except.ok m :=
  ⟨by decide, c10_v0_matches_page dfC10 cenC10 (by decide) (by decide) (by decide)⟩
